import Mathlib

/-!
Verification of the JSON-flattening core of `src/clib/group_parser.c`.

The C core recursively walks a parsed JSON tree (`json-c` objects) and
appends, for every scalar leaf, a (flattened key, value) pair to a Tcl
list.  We embed the core shallowly:

* C strings are modelled as `List Char` (`Str`); one `Char` models one byte.
* The parsed JSON tree (`json_object`) is modelled by `JsonNode`: an object
  node carries its ordered member list, and every non-object value
  (string, number, boolean, null, array — the code treats them all alike)
  is a `scalar` carrying the canonical string rendering that
  `json_object_get_string` would produce.
* The two consecutive `Tcl_ListObjAppendElement` calls that append a key
  and then its value are modelled as appending one `FlatPair`.
* `snprintf(new_key, 1024, ...)` writes at most 1023 bytes plus the NUL
  terminator, i.e. it truncates the formatted key to its first 1023 bytes
  (`snprintfTrunc`).
* `json_tokener_parse` belongs to the external json-c library; the command
  wrapper is modelled as a function of the parse result (`none` = parse
  failure, `some root` = the parsed tree).
-/

/-- C strings (byte sequences) are modelled as lists of characters. -/
abbrev Str := List Char

/-- A parsed JSON value as the C code observes it through json-c:
either an object with an ordered member list, or a scalar carrying the
string rendering `json_object_get_string` yields for it. -/
inductive JsonNode where
  | obj (members : List (Str × JsonNode))
  | scalar (value : Str)

/-- One flattened (key, value) pair appended to the Tcl result list. -/
structure FlatPair where
  path : Str
  value : Str
deriving DecidableEq

/-- Writing with `snprintf` into the 1024-byte `new_key` buffer keeps at most 1023
bytes of the formatted string (the last byte is the NUL terminator). -/
def snprintfTrunc (s : Str) : Str := s.take 1023

/-- The untruncated key composition of `FlattenJsonObj`: `key` when the
prefix is empty (`prefix[0] == '\0'`), else `prefix ++ "," ++ key`. -/
def compose (pre key : Str) : Str := if pre = [] then key else pre ++ ',' :: key

/-- The content of the `new_key` buffer after the `snprintf` call: the
composition of prefix and key, truncated to 1023 bytes. -/
def newKeyOf (pre key : Str) : Str := snprintfTrunc (compose pre key)

/-- The member loop of `FlattenJsonObj`: for each `(key, val)` member in
order, build `new_key`; recurse when `val` is an object, otherwise append
the `(new_key, value)` pair to the result list. -/
def flattenMembers : List (Str × JsonNode) → Str → List FlatPair
  | [], _ => []
  | (key, val) :: rest, pre =>
    (match val with
     | .obj ms => flattenMembers ms (newKeyOf pre key)
     | .scalar v => [⟨newKeyOf pre key, v⟩]) ++ flattenMembers rest pre

/-- The walk `FlattenJsonObj` on a node.  On an object it runs the member loop.
Modelled from the spec for the non-object case: `json_object_object_foreach`
is json-c library code not part of this repository; per the spec's
recursion-entry edge case a non-object node contributes no iterations,
so the walk emits nothing. -/
def FlattenJsonObj : JsonNode → Str → List FlatPair
  | .obj ms, pre => flattenMembers ms pre
  | .scalar _, _ => []

/-- The only error the command produces: `json_tokener_parse` returned
NULL, reported as "Failed to parse JSON text in C". -/
inductive FlattenError where
  | InvalidJson
deriving DecidableEq

/-- The command `GroupFromJsonCmd`, stripped of the Tcl argument plumbing: given the
result of `json_tokener_parse` (`none` = parse failure), either report
the parse error or return the list built by `FlattenJsonObj` started
with the empty prefix. -/
def GroupFromJsonCmd (parseResult : Option JsonNode) :
    Except FlattenError (List FlatPair) :=
  match parseResult with
  | none => .error .InvalidJson
  | some root => .ok (FlattenJsonObj root [])

/-- Number of scalar (non-object) leaves below a member list, counted
recursively. -/
def countLeavesMembers : List (Str × JsonNode) → Nat
  | [] => 0
  | (_, .obj ms) :: rest => countLeavesMembers ms + countLeavesMembers rest
  | (_, .scalar _) :: rest => 1 + countLeavesMembers rest

/-- Number of scalar leaves of a tree: a scalar is one leaf, an object
has the leaves of its members. -/
def countLeaves : JsonNode → Nat
  | .obj ms => countLeavesMembers ms
  | .scalar _ => 1

/-- Keys are pairwise distinct within every object of the member list
(the "no duplicate keys at the same nesting level" condition). -/
def nodupKeysMembers : List (Str × JsonNode) → Bool
  | [] => true
  | (key, val) :: rest =>
    decide (∀ p ∈ rest, p.1 ≠ key) &&
    (match val with
     | .obj ms => nodupKeysMembers ms
     | .scalar _ => true) &&
    nodupKeysMembers rest

/-- Well-formedness of a member list relative to the walk prefix `pre`:
every key is nonempty, contains no comma, its composed path stays within
the 1023-byte `snprintf` bound, keys are pairwise distinct at each level,
and the same holds recursively below each object member at its composed
prefix. -/
def wfMembers : List (Str × JsonNode) → Str → Bool
  | [], _ => true
  | (key, val) :: rest, pre =>
    decide (key ≠ []) &&
    decide (',' ∉ key) &&
    decide ((compose pre key).length ≤ 1023) &&
    decide (∀ p ∈ rest, p.1 ≠ key) &&
    (match val with
     | .obj ms => wfMembers ms (compose pre key)
     | .scalar _ => true) &&
    wfMembers rest pre

/-- Nesting depth of a member list: the number of object levels the walk
must descend through.  Scalars add nothing; an object member adds one
level above its own members. -/
def depthMembers : List (Str × JsonNode) → Nat
  | [] => 0
  | (_, .obj ms) :: rest => max (depthMembers ms + 1) (depthMembers rest)
  | (_, .scalar _) :: rest => depthMembers rest

/-- Fuel-indexed version of the member loop: recursion into a child
object consumes one unit of fuel, and fuel 0 gives up.  Used to state
that the C recursion, which descends only into strict subtrees, needs
no more nested calls than the tree is deep. -/
def flattenMembersFuel : Nat → List (Str × JsonNode) → Str → Option (List FlatPair)
  | 0, _, _ => none
  | _ + 1, [], _ => some []
  | fuel + 1, (key, val) :: rest, pre => do
    let headPairs ← match val with
      | .obj ms => flattenMembersFuel fuel ms (newKeyOf pre key)
      | .scalar v => some [⟨newKeyOf pre key, v⟩]
    let restPairs ← flattenMembersFuel (fuel + 1) rest pre
    some (headPairs ++ restPairs)

/-- A path suffix that a deeper descent can append to a composed key:
either nothing (the pair was emitted at this key) or a comma followed by
further segments. -/
def CommaExt (e : Str) : Prop := e = [] ∨ ∃ t, e = ',' :: t

/-- The truncated key has at most 1023 bytes. -/
theorem snprintfTrunc_length (s : Str) : (snprintfTrunc s).length ≤ 1023 := by
  simp [snprintfTrunc, List.length_take]

/-- A composition that fits in the buffer is not changed by `snprintf`. -/
theorem snprintfTrunc_of_fits {s : Str} (h : s.length ≤ 1023) : snprintfTrunc s = s :=
  List.take_of_length_le h

/-- Under the buffer bound, `new_key` holds the exact composition. -/
theorem newKeyOf_of_fits {pre key : Str} (h : (compose pre key).length ≤ 1023) :
    newKeyOf pre key = compose pre key :=
  snprintfTrunc_of_fits h

/-- The member loop turns list concatenation into output concatenation. -/
theorem flattenMembers_append (ms1 ms2 : List (Str × JsonNode)) (pre : Str) :
    flattenMembers (ms1 ++ ms2) pre = flattenMembers ms1 pre ++ flattenMembers ms2 pre := by
  induction ms1 with
  | nil => simp [flattenMembers]
  | cons hd tl ih =>
    obtain ⟨key, val⟩ := hd
    cases val with
    | obj ms => simp [flattenMembers, ih, List.append_assoc]
    | scalar v => simp [flattenMembers, ih, List.append_assoc]

/-- The output of the member loop has one pair per scalar leaf. -/
theorem flattenMembers_length (ms : List (Str × JsonNode)) (pre : Str) :
    (flattenMembers ms pre).length = countLeavesMembers ms := by
  induction ms, pre using flattenMembers.induct with
  | case1 => simp [flattenMembers, countLeavesMembers]
  | case2 key val rest pre ih1 ih2 =>
    cases val with
    | obj ms2 =>
      simp only at ih1
      simp [flattenMembers, countLeavesMembers, ih1, ih2]
    | scalar v =>
      simp [flattenMembers, countLeavesMembers, ih2]
      omega

/-- Comma-free segments followed by admissible extensions can only agree
when the segments agree: the comma delimiter marks the segment boundary. -/
theorem commaFree_append_inj : ∀ (k1 k2 e1 e2 : Str), ',' ∉ k1 → ',' ∉ k2 →
    CommaExt e1 → CommaExt e2 → k1 ++ e1 = k2 ++ e2 → k1 = k2 := by
  intro k1
  induction k1 with
  | nil =>
    intro k2 e1 e2 h1 h2 he1 he2 heq
    cases k2 with
    | nil => rfl
    | cons d k2t =>
      exfalso
      rcases he1 with rfl | ⟨t, rfl⟩
      · simp at heq
      · simp only [List.nil_append, List.cons_append, List.cons.injEq] at heq
        exact h2 (heq.1 ▸ List.mem_cons_self d k2t)
  | cons c k1t ih =>
    intro k2 e1 e2 h1 h2 he1 he2 heq
    cases k2 with
    | nil =>
      exfalso
      rcases he2 with rfl | ⟨t, rfl⟩
      · simp at heq
      · simp only [List.nil_append, List.cons_append, List.cons.injEq] at heq
        exact h1 (heq.1 ▸ List.mem_cons_self c k1t)
    | cons d k2t =>
      simp only [List.cons_append, List.cons.injEq] at heq
      obtain ⟨rfl, heq2⟩ := heq
      have h1t : ',' ∉ k1t := fun hm => h1 (List.mem_cons_of_mem _ hm)
      have h2t : ',' ∉ k2t := fun hm => h2 (List.mem_cons_of_mem _ hm)
      rw [ih k2t e1 e2 h1t h2t he1 he2 heq2]

/-- Paths composed from distinct comma-free keys under the same prefix
stay distinct, whatever admissible suffixes deeper descents append. -/
theorem compose_sep (pre k1 k2 e1 e2 : Str) (h1 : ',' ∉ k1) (h2 : ',' ∉ k2)
    (he1 : CommaExt e1) (he2 : CommaExt e2) (hne : k1 ≠ k2) :
    compose pre k1 ++ e1 ≠ compose pre k2 ++ e2 := by
  intro heq
  apply hne
  unfold compose at heq
  by_cases hp : pre = []
  · simp only [hp, if_pos rfl] at heq
    exact commaFree_append_inj k1 k2 e1 e2 h1 h2 he1 he2 heq
  · simp only [if_neg hp, List.append_assoc, List.cons_append,
      List.append_cancel_left_eq, List.cons.injEq, true_and] at heq
    exact commaFree_append_inj k1 k2 e1 e2 h1 h2 he1 he2 heq

/-- A nonempty key composes to a nonempty path. -/
theorem compose_ne_nil {pre key : Str} (h : key ≠ []) : compose pre key ≠ [] := by
  unfold compose
  split
  · exact h
  · simp

/-- Composition under a nonempty prefix appends a comma and the key. -/
theorem compose_deep {q k : Str} (hq : q ≠ []) : compose q k = q ++ ',' :: k := by
  unfold compose
  rw [if_neg hq]

/-- In a well-formed member list, every top-level key is comma-free. -/
theorem wfMembers_key_commaFree : ∀ (ms : List (Str × JsonNode)) (pre : Str),
    wfMembers ms pre = true → ∀ p ∈ ms, ',' ∉ p.1 := by
  intro ms
  induction ms with
  | nil => simp
  | cons hd tl ih =>
    intro pre hwf p hp
    obtain ⟨key, val⟩ := hd
    cases val with
    | scalar v =>
      simp only [wfMembers, Bool.and_eq_true, decide_eq_true_eq] at hwf
      obtain ⟨⟨⟨⟨⟨hk_ne, hk_comma⟩, hk_fit⟩, hk_nodup⟩, hval⟩, hrest⟩ := hwf
      rcases List.mem_cons.mp hp with rfl | htl
      · exact hk_comma
      · exact ih pre hrest p htl
    | obj ms2 =>
      simp only [wfMembers, Bool.and_eq_true, decide_eq_true_eq] at hwf
      obtain ⟨⟨⟨⟨⟨hk_ne, hk_comma⟩, hk_fit⟩, hk_nodup⟩, hval⟩, hrest⟩ := hwf
      rcases List.mem_cons.mp hp with rfl | htl
      · exact hk_comma
      · exact ih pre hrest p htl

/-- Every pair the member loop emits under a well-formed member list owes
its path to one top-level member key of the list, followed by an
admissible suffix (empty, or comma plus deeper segments). -/
theorem flattenMembers_shape (ms : List (Str × JsonNode)) (pre : Str) :
    wfMembers ms pre = true →
    ∀ fp ∈ flattenMembers ms pre,
      ∃ key, (∃ val, (key, val) ∈ ms) ∧ ∃ e, CommaExt e ∧ fp.path = compose pre key ++ e := by
  induction ms, pre using wfMembers.induct with
  | case1 =>
    intro _ fp hfp
    simp [flattenMembers] at hfp
  | case2 key val rest pre ih1 ih2 =>
    intro hwf fp hfp
    cases val with
    | scalar v =>
      simp only [wfMembers, Bool.and_eq_true, decide_eq_true_eq] at hwf
      obtain ⟨⟨⟨⟨⟨hk_ne, hk_comma⟩, hk_fit⟩, hk_nodup⟩, hval⟩, hrest⟩ := hwf
      simp only [flattenMembers, List.singleton_append] at hfp
      rcases List.mem_cons.mp hfp with rfl | hr
      · refine ⟨key, ⟨.scalar v, List.mem_cons_self _ _⟩, [], Or.inl rfl, ?_⟩
        simp [newKeyOf_of_fits hk_fit]
      · obtain ⟨k2, ⟨v2, hv2⟩, e, he, hpath⟩ := ih2 hrest fp hr
        exact ⟨k2, ⟨v2, List.mem_cons_of_mem _ hv2⟩, e, he, hpath⟩
    | obj ms2 =>
      simp only [wfMembers, Bool.and_eq_true, decide_eq_true_eq] at hwf
      obtain ⟨⟨⟨⟨⟨hk_ne, hk_comma⟩, hk_fit⟩, hk_nodup⟩, hval⟩, hrest⟩ := hwf
      simp only at ih1
      simp only [flattenMembers] at hfp
      rcases List.mem_append.mp hfp with hl | hr
      · rw [newKeyOf_of_fits hk_fit] at hl
        obtain ⟨k2, hk2mem, e, he, hpath⟩ := ih1 hval fp hl
        refine ⟨key, ⟨.obj ms2, List.mem_cons_self _ _⟩, ',' :: (k2 ++ e),
          Or.inr ⟨_, rfl⟩, ?_⟩
        rw [hpath, compose_deep (compose_ne_nil hk_ne), List.append_assoc]
        rfl
      · obtain ⟨k2, ⟨v2, hv2⟩, e, he, hpath⟩ := ih2 hrest fp hr
        exact ⟨k2, ⟨v2, List.mem_cons_of_mem _ hv2⟩, e, he, hpath⟩

/-- Under a well-formed member list the paths the member loop emits are
pairwise distinct. -/
theorem flattenMembers_paths_nodup (ms : List (Str × JsonNode)) (pre : Str) :
    wfMembers ms pre = true → ((flattenMembers ms pre).map FlatPair.path).Nodup := by
  induction ms, pre using wfMembers.induct with
  | case1 =>
    intro _
    simp [flattenMembers]
  | case2 key val rest pre ih1 ih2 =>
    intro hwf
    cases val with
    | scalar v =>
      simp only [wfMembers, Bool.and_eq_true, decide_eq_true_eq] at hwf
      obtain ⟨⟨⟨⟨⟨hk_ne, hk_comma⟩, hk_fit⟩, hk_nodup⟩, hval⟩, hrest⟩ := hwf
      simp only [flattenMembers, List.singleton_append, List.map_cons, List.nodup_cons]
      refine ⟨?_, ih2 hrest⟩
      intro hmem
      obtain ⟨fp, hfp, hpath⟩ := List.mem_map.mp hmem
      obtain ⟨k2, ⟨v2, hv2⟩, e, he, hpe⟩ := flattenMembers_shape rest pre hrest fp hfp
      have hk2_comma : ',' ∉ k2 := wfMembers_key_commaFree rest pre hrest (k2, v2) hv2
      have hk2_ne : key ≠ k2 := fun h => hk_nodup (k2, v2) hv2 h.symm
      apply compose_sep pre key k2 [] e hk_comma hk2_comma (Or.inl rfl) he hk2_ne
      rw [List.append_nil, ← newKeyOf_of_fits hk_fit, ← hpath, hpe]
    | obj ms2 =>
      simp only [wfMembers, Bool.and_eq_true, decide_eq_true_eq] at hwf
      obtain ⟨⟨⟨⟨⟨hk_ne, hk_comma⟩, hk_fit⟩, hk_nodup⟩, hval⟩, hrest⟩ := hwf
      simp only at ih1
      simp only [flattenMembers, List.map_append, List.nodup_append]
      refine ⟨?_, ih2 hrest, ?_⟩
      · rw [newKeyOf_of_fits hk_fit]
        exact ih1 hval
      · intro a ha hb
        rw [newKeyOf_of_fits hk_fit] at ha
        obtain ⟨fp1, hfp1, hpath1⟩ := List.mem_map.mp ha
        obtain ⟨fp2, hfp2, hpath2⟩ := List.mem_map.mp hb
        obtain ⟨k2, hk2mem, e2, he2, hpe1⟩ :=
          flattenMembers_shape ms2 (compose pre key) hval fp1 hfp1
        obtain ⟨k3, ⟨v3, hv3⟩, e3, he3, hpe2⟩ := flattenMembers_shape rest pre hrest fp2 hfp2
        have hk3_comma : ',' ∉ k3 := wfMembers_key_commaFree rest pre hrest (k3, v3) hv3
        have hk3_ne : key ≠ k3 := fun h => hk_nodup (k3, v3) hv3 h.symm
        apply compose_sep pre key k3 (',' :: (k2 ++ e2)) e3 hk_comma hk3_comma
          (Or.inr ⟨_, rfl⟩) he3 hk3_ne
        have h1 : fp1.path = compose pre key ++ ',' :: (k2 ++ e2) := by
          rw [hpe1, compose_deep (compose_ne_nil hk_ne), List.append_assoc]
          rfl
        rw [← h1, hpath1, ← hpath2, hpe2]

/-- C1: for every parsed tree whose root is an object (arrays do not
occur as such in the adapter: json-c values other than objects are
rendered as scalars), the command succeeds and returns one FlatPair per
scalar leaf: the output length equals the recursively counted number of
non-object leaves, object nodes — including empty ones — contributing no
pair directly. -/
theorem flatten_length_eq_leafCount (ms : List (Str × JsonNode)) :
    GroupFromJsonCmd (some (.obj ms)) = Except.ok (FlattenJsonObj (.obj ms) []) ∧
    (FlattenJsonObj (.obj ms) []).length = countLeaves (.obj ms) :=
  ⟨rfl, flattenMembers_length ms []⟩

/-- C2 is false as stated: visited with the empty prefix, a 1024-byte
key is emitted truncated to its first 1023 bytes by the bounded
`snprintf`, so the emitted PathKey differs from the key. -/
theorem newKey_truncation_cex :
    FlattenJsonObj (.obj [(List.replicate 1024 'a', .scalar ['1'])]) [] =
      [⟨List.replicate 1023 'a', ['1']⟩] ∧
    (List.replicate 1023 'a' : Str) ≠ List.replicate 1024 'a' := by
  have hkey : newKeyOf [] (List.replicate 1024 'a') = List.replicate 1023 'a' := by
    rw [newKeyOf, compose, if_pos rfl, snprintfTrunc, List.take_replicate]
    norm_num
  constructor
  · simp only [FlattenJsonObj, flattenMembers, hkey, List.singleton_append, List.append_nil]
  · intro h
    have hlen := congrArg List.length h
    rw [List.length_replicate, List.length_replicate] at hlen
    omega

/-- C2 (amended): for every (key, child) pair visited with current
prefix p, the PathKey emitted for a scalar child, or propagated into an
object child, equals the first 1023 bytes of the composition — key when
p is empty, else p followed by a single comma followed by key — hence
the full composition whenever it fits the buffer, with no escaping of
commas occurring inside keys. -/
theorem newKey_is_truncated_composition (p key v : Str) (c rest : List (Str × JsonNode)) :
    flattenMembers ((key, .scalar v) :: rest) p =
      ⟨(if p = [] then key else p ++ ',' :: key).take 1023, v⟩ :: flattenMembers rest p ∧
    flattenMembers ((key, .obj c) :: rest) p =
      flattenMembers c ((if p = [] then key else p ++ ',' :: key).take 1023) ++
        flattenMembers rest p := by
  constructor
  · simp [flattenMembers, newKeyOf, snprintfTrunc, compose]
  · simp [flattenMembers, newKeyOf, snprintfTrunc, compose]

/-- C3: the output lists pairs in pre-order depth-first traversal order:
splitting an object's member list anywhere splits the output at the same
point, so all pairs arising from an earlier child precede all pairs
arising from a later child, children being processed in member order. -/
theorem flatten_preserves_child_order (ms1 ms2 : List (Str × JsonNode)) (pre : Str) :
    FlattenJsonObj (.obj (ms1 ++ ms2)) pre =
      FlattenJsonObj (.obj ms1) pre ++ FlattenJsonObj (.obj ms2) pre :=
  flattenMembers_append ms1 ms2 pre

/-- C4: the command errors exactly when `json_tokener_parse` fails; the
error is the single kind InvalidJson with no partial output, and every
successfully parsed tree flattens without any error. -/
theorem flatten_error_iff_parse_failed (p : Option JsonNode) :
    ((∃ e, GroupFromJsonCmd p = Except.error e) ↔ p = none) ∧
    GroupFromJsonCmd none = Except.error FlattenError.InvalidJson ∧
    ∀ root, GroupFromJsonCmd (some root) = Except.ok (FlattenJsonObj root []) := by
  refine ⟨?_, rfl, fun root => rfl⟩
  cases p with
  | none => exact iff_of_true ⟨FlattenError.InvalidJson, rfl⟩ rfl
  | some root => simp [GroupFromJsonCmd]

/-- C5 is false as stated: this source document has no duplicate keys at
any nesting level, yet the unescaped comma makes the top-level key "a,b"
collide with the nested path a → b, so two FlatPairs share PathKey "a,b". -/
theorem samePathKey_despite_nodupKeys_cex :
    nodupKeysMembers [(['a', ',', 'b'], .scalar ['1']),
      (['a'], .obj [(['b'], .scalar ['2'])])] = true ∧
    FlattenJsonObj (.obj [(['a', ',', 'b'], .scalar ['1']),
      (['a'], .obj [(['b'], .scalar ['2'])])]) [] =
      [⟨['a', ',', 'b'], ['1']⟩, ⟨['a', ',', 'b'], ['2']⟩] ∧
    ¬ ((FlattenJsonObj (.obj [(['a', ',', 'b'], .scalar ['1']),
      (['a'], .obj [(['b'], .scalar ['2'])])]) []).map FlatPair.path).Nodup := by
  refine ⟨by simp [nodupKeysMembers], ?_, ?_⟩
  · simp [FlattenJsonObj, flattenMembers, newKeyOf, snprintfTrunc, compose]
  · simp [FlattenJsonObj, flattenMembers, newKeyOf, snprintfTrunc, compose]

/-- C5 (amended): if, beyond having pairwise distinct keys at every
nesting level, every key is nonempty, contains no comma, and every
composed path fits the 1023-byte buffer, then no two FlatPairs in the
output share the same PathKey. -/
theorem flatten_pathKeys_nodup_of_wf (ms : List (Str × JsonNode))
    (h : wfMembers ms [] = true) :
    ((FlattenJsonObj (.obj ms) []).map FlatPair.path).Nodup :=
  flattenMembers_paths_nodup ms [] h

/-- Concrete instance of the amended C5: a well-formed two-level document
has pairwise distinct PathKeys. -/
theorem flatten_pathKeys_nodup_of_wf_witness :
    wfMembers [(['a'], .scalar ['1']), (['b'], .obj [(['c'], .scalar ['2'])])] [] = true ∧
    ((FlattenJsonObj (.obj [(['a'], .scalar ['1']),
      (['b'], .obj [(['c'], .scalar ['2'])])]) []).map FlatPair.path).Nodup :=
  ⟨by simp [wfMembers, compose],
   flatten_pathKeys_nodup_of_wf _ (by simp [wfMembers, compose])⟩

/-- C6: a document whose root parses to a bare scalar (e.g. "5" or true)
flattens successfully to the empty output sequence. -/
theorem flatten_scalar_root_empty (v : Str) :
    GroupFromJsonCmd (some (.scalar v)) = Except.ok [] := rfl

/-- C7: flattening the document with members a ↦ 1 and b ↦ (c ↦ 2, d ↦ 3)
yields exactly ("a","1"), ("b,c","2"), ("b,d","3") in that order. -/
theorem flatten_nested_example :
    GroupFromJsonCmd (some (.obj [(['a'], .scalar ['1']),
      (['b'], .obj [(['c'], .scalar ['2']), (['d'], .scalar ['3'])])])) =
      Except.ok [⟨['a'], ['1']⟩, ⟨['b', ',', 'c'], ['2']⟩, ⟨['b', ',', 'd'], ['3']⟩] := by
  simp [GroupFromJsonCmd, FlattenJsonObj, flattenMembers, newKeyOf, snprintfTrunc, compose]

/-- C8: the command is deterministic: two runs on the same parse result
yield identical outcomes — the same output sequence, or the same error. -/
theorem flatten_deterministic (p : Option JsonNode)
    (r1 r2 : Except FlattenError (List FlatPair))
    (h1 : GroupFromJsonCmd p = r1) (h2 : GroupFromJsonCmd p = r2) : r1 = r2 := by
  rw [← h1, ← h2]

/-- Concrete instance of C8 at a one-member document. -/
theorem flatten_deterministic_witness :
    (Except.ok [({ path := ['a'], value := ['1'] } : FlatPair)] :
      Except FlattenError (List FlatPair)) =
      Except.ok [({ path := ['a'], value := ['1'] } : FlatPair)] :=
  flatten_deterministic (some (.obj [(['a'], .scalar ['1'])])) _ _
    (by simp [GroupFromJsonCmd, FlattenJsonObj, flattenMembers, newKeyOf, snprintfTrunc,
      compose])
    (by simp [GroupFromJsonCmd, FlattenJsonObj, flattenMembers, newKeyOf, snprintfTrunc,
      compose])

/-- C9: the recursive walk descends only into strict subtrees, so on any
finite parsed tree it terminates: the fuel-indexed walk, given any fuel
exceeding the nesting depth, completes and computes the total function. -/
theorem flatten_fuel_total (fuel : Nat) (ms : List (Str × JsonNode)) (pre : Str)
    (h : depthMembers ms < fuel) :
    flattenMembersFuel fuel ms pre = some (flattenMembers ms pre) := by
  induction fuel, ms, pre using flattenMembersFuel.induct with
  | case1 ms pre => exact absurd h (Nat.not_lt_zero _)
  | case2 fuel pre => simp [flattenMembersFuel, flattenMembers]
  | case3 fuel key rest pre ms2 ihrest ihchild =>
    simp only [depthMembers] at h
    have h1 : depthMembers ms2 < fuel := by omega
    have h2 : depthMembers rest < fuel + 1 := by omega
    simp [flattenMembersFuel, flattenMembers, ihchild h1, ihrest h2]
  | case4 fuel key rest pre v ihrest =>
    simp only [depthMembers] at h
    simp [flattenMembersFuel, flattenMembers, ihrest h]

/-- Concrete instance of C9: fuel 2 suffices for a depth-1 document. -/
theorem flatten_fuel_total_witness :
    depthMembers [(['a'], .obj [(['b'], .scalar ['1'])])] < 2 ∧
    flattenMembersFuel 2 [(['a'], .obj [(['b'], .scalar ['1'])])] [] =
      some (flattenMembers [(['a'], .obj [(['b'], .scalar ['1'])])] []) :=
  ⟨by simp [depthMembers], flatten_fuel_total 2 _ [] (by simp [depthMembers])⟩

/-- C10: every emitted PathKey is at most 1023 bytes long, because the
composite key lives in a fixed 1024-byte buffer written by bounded
`snprintf`: the key placed in the buffer is always the composition
prefix-comma-key (or the bare key at the root) silently truncated to its
first 1023 bytes. -/
theorem emitted_pathKeys_bounded :
    (∀ (ms : List (Str × JsonNode)) (pre : Str), ∀ fp ∈ flattenMembers ms pre,
      fp.path.length ≤ 1023) ∧
    (∀ pre key : Str,
      newKeyOf pre key = (if pre = [] then key else pre ++ ',' :: key).take 1023) := by
  constructor
  · intro ms pre
    induction ms, pre using flattenMembers.induct with
    | case1 =>
      intro fp hfp
      simp [flattenMembers] at hfp
    | case2 key val rest pre ih1 ih2 =>
      intro fp hfp
      cases val with
      | scalar v =>
        simp only [flattenMembers, List.singleton_append] at hfp
        rcases List.mem_cons.mp hfp with rfl | hr
        · exact snprintfTrunc_length _
        · exact ih2 fp hr
      | obj ms2 =>
        simp only at ih1
        simp only [flattenMembers] at hfp
        rcases List.mem_append.mp hfp with hl | hr
        · exact ih1 fp hl
        · exact ih2 fp hr
  · intro pre key
    rfl

/-- Concrete instance of C10 at a one-member document. -/
theorem emitted_pathKeys_bounded_witness :
    (⟨['a'], ['1']⟩ : FlatPair) ∈ flattenMembers [(['a'], JsonNode.scalar ['1'])] [] ∧
    (⟨['a'], ['1']⟩ : FlatPair).path.length ≤ 1023 :=
  ⟨by simp [flattenMembers, newKeyOf, snprintfTrunc, compose],
   emitted_pathKeys_bounded.1 [(['a'], JsonNode.scalar ['1'])] [] ⟨['a'], ['1']⟩
     (by simp [flattenMembers, newKeyOf, snprintfTrunc, compose])⟩
